import Mathlib

/-!
# Verification of the buster asset-fingerprinting core

This development gives a shallow embedding of the core of the buster
repository (a build-time cache-busting tool for static web assets) and
proves properties of its components:

* the extension filter (src/unnamed/part_013, filterByExtension),
* the content hasher interface (src/unnamed/part_013, hashFileContent),
* the filename deriver (src/unnamed/part_014, determineNewFilename),
* the file materializer (src/unnamed/part_014, copyFile / renameFile /
  Filesystem.createHashedFile),
* the recursive tree walker with its per-file payload
  (src/src/lib/hashwalker/hashwalker.ts, fileObjectWalker and
  createHashedFile),
* the commonPathLength normalization of checkConfig
  (src/unnamed/part_008).

Strings are modelled as Lean strings; the character-counting semantics of
JavaScript String.prototype.substring and String.prototype.length is
reproduced for the relevant (single-code-unit) character range.  The
filesystem seen by the walker is modelled as an inductive tree whose
nodes carry the data the walk inspects: regular files carry their content
and a flag telling whether reading them succeeds, and a statError node
stands for an entry on which stat() fails.  The MD5 digest computation of
the crypto library is abstracted as an arbitrary function from content to
digest string, passed as a parameter.
-/

namespace Buster

/-! ## JavaScript string primitives -/

/-- JavaScript s.substring(start): the start index is clamped to
[0, s.length]; the suffix from that index is returned.  Character-counted
(accurate for single-code-unit characters). -/
def jsSubstring (s : String) (start : Int) : String :=
  String.mk (s.data.drop start.toNat)

/-- JavaScript s.substring(a, b): both indices are clamped to
[0, s.length] and swapped when out of order; the slice in between is
returned. -/
def jsSubstring2 (s : String) (a b : Int) : String :=
  let x := min a.toNat s.data.length
  let y := min b.toNat s.data.length
  String.mk ((s.data.take (max x y)).drop (min x y))

/-! ## The POSIX path model (Node.js path module semantics)

The path functions used by the source (extname, dirname, basename, join,
resolve, sep) are those of the Node.js path module; they are external
library code, embedded here by their documented POSIX behaviour on
slash-separated paths. -/

/-- A valid directory-entry name as returned by readdir: nonempty, free of
the path separator, and not one of the special entries "." and "..". -/
def validName (s : String) : Bool :=
  !(s.data.isEmpty) && !(s.data.contains '/') && s != "." && s != ".."

/-- Join a list of path segments with the path separator, without a
leading or trailing separator. -/
def joinSegs : List (List Char) → List Char
  | [] => []
  | [s] => s
  | s :: t :: rest => s ++ '/' :: joinSegs (t :: rest)

/-- Split a character list at every separator, keeping empty pieces. -/
def splitSlash : List Char → List (List Char)
  | [] => [[]]
  | c :: rest =>
    if c = '/' then [] :: splitSlash rest
    else
      match splitSlash rest with
      | [] => [[c]]
      | s :: ss => (c :: s) :: ss

/-- The nonempty segments of a path. -/
def segsOfL (l : List Char) : List (List Char) :=
  (splitSlash l).filter (fun s => !s.isEmpty)

/-- The segment-resolution loop of Node path normalization: "." segments
are dropped and ".." segments pop the stack (or accumulate, when ascending
above the root is allowed). -/
def normLoop (allowAboveRoot : Bool) : List (List Char) → List (List Char) → List (List Char)
  | [], stack => stack.reverse
  | s :: rest, stack =>
    if s == ['.'] then normLoop allowAboveRoot rest stack
    else if s == ['.', '.'] then
      match stack with
      | [] => if allowAboveRoot then normLoop allowAboveRoot rest [['.', '.']]
              else normLoop allowAboveRoot rest []
      | t :: stack' =>
        if t == ['.', '.'] then normLoop allowAboveRoot rest (s :: t :: stack')
        else normLoop allowAboveRoot rest stack'
    else normLoop allowAboveRoot rest (s :: stack)

/-- Resolve "." and ".." segments of a segment list. -/
def normalizeSegs (allowAboveRoot : Bool) (segs : List (List Char)) : List (List Char) :=
  normLoop allowAboveRoot segs []

/-- Tests whether a character list starts with the path separator. -/
def headIsSlash : List Char → Bool
  | '/' :: _ => true
  | _ => false

/-- Node path.basename on character lists: the part of the path after the
last separator, trailing separators ignored. -/
def basenameL (l : List Char) : List Char :=
  (((l.reverse.dropWhile (fun c => c == '/')).takeWhile (fun c => c != '/')).reverse)

/-- Split a character list around its last dot, when one exists: the
result is the part before the last dot and the (dot-free) part after
it. -/
def lastDotSplit : List Char → Option (List Char × List Char)
  | [] => none
  | c :: rest =>
    match lastDotSplit rest with
    | some (pre, suf) => some (c :: pre, suf)
    | none => if c = '.' then some ([], rest) else none

/-- The extension of a basename: from the last dot to the end, except that
a dot that starts the basename introduces no extension and the special
basename ".." has none (Node path.extname behaviour). -/
def extOfBase (b : List Char) : List Char :=
  if b = ['.', '.'] then []
  else
    match lastDotSplit b with
    | none => []
    | some (pre, suf) => if pre.isEmpty then [] else '.' :: suf

/-- Node path.extname: the extension of the path's basename, with the
leading dot, or the empty string. -/
def extname (p : String) : String :=
  String.mk (extOfBase (basenameL p.data))

/-- Node path.dirname (POSIX): the path up to the last separator, with the
documented special cases for root-only and separator-free paths. -/
def dirname (p : String) : String :=
  let l := p.data
  if l.isEmpty then "." else
  let hasRoot := headIsSlash l
  let r := l.reverse.dropWhile (fun c => c == '/')
  if r.isEmpty then "/" else
  let restRev := r.dropWhile (fun c => c != '/')
  if restRev.isEmpty then (if hasRoot then "/" else ".") else
  if hasRoot && restRev.length == 2 then "//" else
  if restRev.length == 1 then "/" else
  String.mk ((restRev.drop 1).reverse)

/-- Node path.basename(p): the final segment of the path. -/
def basename (p : String) : String :=
  String.mk (basenameL p.data)

/-- Node path.basename(p, ext): the final segment of the path, with the
suffix ext removed when it is a proper suffix of that segment. -/
def basename2 (p ext : String) : String :=
  let b := (basenameL p.data)
  let e := ext.data
  if !e.isEmpty && b != e && e.isSuffixOf b then
    String.mk (b.take (b.length - e.length))
  else String.mk b

/-- Node path.normalize (POSIX): resolves "." and ".." segments, collapses
repeated separators, and preserves a leading or trailing separator. -/
def posixNormalize (p : String) : String :=
  if p.data.isEmpty then "." else
  let isAbs : Bool := headIsSlash p.data
  let trailing : Bool := headIsSlash p.data.reverse
  let stack := normalizeSegs (!isAbs) (segsOfL p.data)
  let body := joinSegs stack
  if body.isEmpty then
    (if isAbs then "/" else if trailing then "./" else ".")
  else
    let withTrail := if trailing then body ++ ['/'] else body
    if isAbs then String.mk ('/' :: withTrail) else String.mk withTrail

/-- Node path.join of two parts (POSIX): concatenation with a separator,
followed by normalization; empty parts are ignored. -/
def posixJoin (a b : String) : String :=
  if a.data.isEmpty && b.data.isEmpty then "."
  else if a.data.isEmpty then posixNormalize b
  else if b.data.isEmpty then posixNormalize a
  else posixNormalize (a ++ "/" ++ b)

/-- Node path.resolve(parent, name) for an absolute parent and a
non-absolute name: the concatenation is normalized into an absolute path
without a trailing separator.  The walker only resolves readdir entry
names against the absolute path of the directory just listed, which this
case covers. -/
def pathresolve (parent name : String) : String :=
  if (normalizeSegs false (segsOfL (parent.data ++ '/' :: name.data))).isEmpty
  then "/"
  else String.mk ('/' :: joinSegs (normalizeSegs false (segsOfL (parent.data ++ '/' :: name.data))))

/-! ## Error taxonomy

The source defines an error-class hierarchy over a common BusterError
base (src/src/lib/errors.ts and the module-local subclasses
BusterExtensionFilterError, BusterHashError, BusterFileSystemError,
BusterHashWalkerError).  Each subclass is modelled as a constructor; the
instanceof test of the payload catch clause becomes a constructor match. -/

inductive BusterErr where
  | filterError (message : String)
  | hashError (message : String)
  | fsError (message : String)
  | walkerError (message : String)
deriving DecidableEq, Repr

/-! ## Configuration (src/unnamed/part_008) -/

/-- Operation mode constant MODE_COPY.  The BusterConfigMode union of the
source is a string type, so the mode field is modelled as a string and the
materializer keeps its defensive default branch. -/
def MODE_COPY : String := "copy"

/-- Operation mode constant MODE_RENAME. -/
def MODE_RENAME : String := "rename"

/-- The BusterConfig interface of src/unnamed/part_008 (the fields the
core reads; outFile is irrelevant to the walk and omitted). -/
structure BusterConfig where
  commonPathLength : Int
  extensions : List String
  input : String
  hashLength : Int
  mode : String

/-- The commonPathLength normalization step of checkConfig
(src/unnamed/part_008, lines 334-340): when the value is the -1 sentinel
and the input is a directory, it becomes the length of the normalized
input plus the length of the path separator; otherwise it is kept
unchanged (in particular it stays -1 for a single-file input). -/
def checkConfigCommonPathLength (commonPathLength : Int) (inputIsDirectory : Bool)
    (normalizedInput : String) : Int :=
  if commonPathLength == -1 && inputIsDirectory then
    Int.ofNat (normalizedInput.data.length + 1)
  else commonPathLength

/-! ## Extension filter (src/unnamed/part_013, filterByExtension) -/

/-- filterByExtension: the extension of the filename (Node extname without
its leading dot, via substring(1)) is looked up in the configured
extension list; on a hit the original filename is resolved unchanged,
otherwise a BusterExtensionFilterError rejects the promise. -/
def filterByExtension (filename : String) (extensions : List String) :
    Except BusterErr String :=
  let fileExtension := jsSubstring (extname filename) 1
  if extensions.contains fileExtension then .ok filename
  else .error (.filterError
    (filename ++ ": extension \"" ++ fileExtension ++ "\" not in extensions"))

/-- The extension test applied by filterByExtension, as a boolean. -/
def extMatches (extensions : List String) (p : String) : Bool :=
  extensions.contains (jsSubstring (extname p) 1)

/-! ## Content hasher (src/unnamed/part_013, hashFileContent)

hashFileContent streams the file and resolves with the hex-encoded MD5
digest of its content, rejecting with a BusterHashError when the stream
errors.  The MD5 computation of the crypto library is abstracted as a
digest function parameter; whether reading succeeds is the readable flag
carried by the file node. -/

/-- hashFileContent over a file's content and its readability flag. -/
def hashFileContent (md5 : String → String) (content : String) (readable : Bool) :
    Except BusterErr String :=
  if readable then .ok (md5 content)
  else .error (.hashError "Error during hash calculation")

/-! ## Filename deriver (src/unnamed/part_014, determineNewFilename) -/

/-- determineNewFilename: splits the filename with dirname / extname /
basename and joins the directory with
basename + "." + fileHash.substring(0, hashLength) + extension.
The identical inline expression appears in the createHashedFile payload of
src/src/lib/hashwalker/hashwalker.ts, lines 32-42. -/
def determineNewFilename (filename fileHash : String) (hashLength : Int) : String :=
  let filePath := dirname filename
  let fileExtension := extname filename
  let fileBasename := basename2 filename fileExtension
  posixJoin filePath
    (fileBasename ++ "." ++ jsSubstring2 fileHash 0 hashLength ++ fileExtension)

/-! ## File materializer (src/unnamed/part_014, lines 29-108)

The flat filesystem state acted on by copyFile / renameFile is a finite
map from absolute path to file content. -/

namespace Filesystem

/-- A flat filesystem: association list from path to content. -/
abbrev FlatFS := List (String × String)

/-- Content of the file at a path, when it exists. -/
def fsRead (fs : FlatFS) (p : String) : Option String :=
  (fs.find? (fun e => e.1 == p)).map (fun e => e.2)

/-- Write content at a path (create or overwrite). -/
def fsWrite (fs : FlatFS) (p c : String) : FlatFS :=
  (p, c) :: fs.filter (fun e => e.1 != p)

/-- Remove the file at a path. -/
def fsErase (fs : FlatFS) (p : String) : FlatFS :=
  fs.filter (fun e => e.1 != p)

/-- copyFile: duplicates the bytes of source to destination and resolves
with the destination; rejects with a BusterFileSystemError when the
underlying operation fails (modelled: when the source does not exist). -/
def copyFile (fs : FlatFS) (source destination : String) :
    Except BusterErr (FlatFS × String) :=
  match fsRead fs source with
  | some c => .ok (fsWrite fs destination c, destination)
  | none => .error (.fsError "Could not copy file")

/-- renameFile: moves source to destination and resolves with the
destination; rejects with a BusterFileSystemError when the underlying
operation fails (modelled: when the source does not exist).  A rename
onto the same path succeeds and leaves the file in place, as POSIX
rename does. -/
def renameFile (fs : FlatFS) (source destination : String) :
    Except BusterErr (FlatFS × String) :=
  match fsRead fs source with
  | some c => .ok (fsWrite (fsErase fs source) destination c, destination)
  | none => .error (.fsError "Could not rename file")

/-- createHashedFile of src/unnamed/part_014, lines 82-108 (the
materializer, exported as createFile in later revisions): selects
copyFile or renameFile by mode, rejecting unknown modes, and resolves
with the destination. -/
def createHashedFile (fs : FlatFS) (source destination : String) (mode : String) :
    Except BusterErr (FlatFS × String) :=
  if mode == MODE_COPY then copyFile fs source destination
  else if mode == MODE_RENAME then renameFile fs source destination
  else .error (.fsError "Unknown mode")

end Filesystem

/-! ## The filesystem tree seen by a walk

A node is a regular file (carrying its content and whether reading it
succeeds), a directory (carrying its readdir listing: name/node pairs),
or an entry on which stat() fails. -/

inductive FSObject where
  | file (content : String) (readable : Bool)
  | statError
  | dir (entries : List (String × FSObject))

/-! ## Per-file payload (createHashedFile,
src/src/lib/hashwalker/hashwalker.ts lines 24-59)

Pipeline: filterByExtension, then hashFileContent, then the new filename
(determineNewFilename), then createFile materialization, then the
one-entry mapping relativized by commonPathLength.  The catch clause
absorbs a BusterExtensionFilterError by resolving with the empty mapping
and re-rejects every other error.  Materialization into the walked tree
is modelled as succeeding (the walk does not observe the copied files);
the materializer itself is verified separately on the flat filesystem. -/

/-- The per-file payload of the hash walker. -/
def createHashedFile (md5 : String → String) (config : BusterConfig)
    (filename content : String) (readable : Bool) :
    Except BusterErr (List (String × String)) :=
  match filterByExtension filename config.extensions with
  | .error err =>
    match err with
    | .filterError _ => .ok []
    | _ => .error err
  | .ok fn =>
    match hashFileContent md5 content readable with
    | .error err =>
      match err with
      | .filterError _ => .ok []
      | _ => .error err
    | .ok hash =>
      let newFilename := determineNewFilename fn hash config.hashLength
      .ok [(jsSubstring filename config.commonPathLength,
            jsSubstring newFilename config.commonPathLength)]

/-! ## Tree walker (fileObjectWalker,
src/src/lib/hashwalker/hashwalker.ts lines 133-196)

stat failure rejects with a BusterHashWalkerError; a directory is listed
and every entry is resolved against the directory path and walked
recursively, the sub-results merged into one mapping (Object.assign over
results with pairwise-distinct keys, modelled as list append) with the
first child failure rejecting the whole invocation; a plain file is
handed to the payload.  Entries are modelled as visited in listing order;
the concurrent dispatch of the source makes the completion order of
siblings arbitrary, which is captured by the SiblingPerm relation
below. -/

mutual

/-- The recursive file-system walker with the createHashedFile payload. -/
def fileObjectWalker (md5 : String → String) (config : BusterConfig) :
    String → FSObject → Except BusterErr (List (String × String))
  | fileObject, .statError =>
    .error (.walkerError ("Could not stat() \"" ++ fileObject ++ "\""))
  | fileObject, .file content readable =>
    createHashedFile md5 config fileObject content readable
  | fileObject, .dir entries => walkEntries md5 config fileObject entries

/-- One directory listing: each entry is made absolute with path.resolve
and walked; the sub-results are merged in order, failing on the first
failed child. -/
def walkEntries (md5 : String → String) (config : BusterConfig) :
    String → List (String × FSObject) → Except BusterErr (List (String × String))
  | _, [] => .ok []
  | fileObject, (name, child) :: rest =>
    match fileObjectWalker md5 config (pathresolve fileObject name) child with
    | .error e => .error e
    | .ok recResult =>
      match walkEntries md5 config fileObject rest with
      | .error e => .error e
      | .ok results => .ok (recResult ++ results)

end

/-! ## Reordered runs

Two runs of the concurrent walk over the same filesystem differ only in
the order in which sibling operations complete; the merged mapping is
assembled in completion order.  A run with a different completion order
is a run of the sequential model on a tree whose sibling lists are
permuted, recursively. -/

mutual

/-- Two trees equal up to reordering of sibling entries, recursively. -/
inductive SiblingPerm : FSObject → FSObject → Prop
  | file (content : String) (readable : Bool) :
      SiblingPerm (.file content readable) (.file content readable)
  | statError : SiblingPerm .statError .statError
  | dir (es es' : List (String × FSObject)) :
      SiblingPermL es es' → SiblingPerm (.dir es) (.dir es')

/-- Permutation of sibling lists, allowing recursive reordering inside
children (the constructors of List.Perm, lifted). -/
inductive SiblingPermL : List (String × FSObject) → List (String × FSObject) → Prop
  | nil : SiblingPermL [] []
  | cons (n : String) (c c' : FSObject) (r r' : List (String × FSObject)) :
      SiblingPerm c c' → SiblingPermL r r' →
      SiblingPermL ((n, c) :: r) ((n, c') :: r')
  | swap (a b : String × FSObject) (r : List (String × FSObject)) :
      SiblingPermL (a :: b :: r) (b :: a :: r)
  | trans (l1 l2 l3 : List (String × FSObject)) :
      SiblingPermL l1 l2 → SiblingPermL l2 l3 → SiblingPermL l1 l3

end

/-! ## Observation functions used to state the claims -/

mutual

/-- The (absolute path, content) pairs of the regular files in a subtree
whose extension passes the filter, in listing order; paths are built
exactly as the walker builds them, with path.resolve. -/
def matchAbs (exts : List String) : String → FSObject → List (String × String)
  | p, .file content _ => if extMatches exts p then [(p, content)] else []
  | _, .statError => []
  | p, .dir es => matchAbsL exts p es

/-- matchAbs over a directory listing. -/
def matchAbsL (exts : List String) : String → List (String × FSObject) →
    List (String × String)
  | _, [] => []
  | p, (name, child) :: rest =>
    matchAbs exts (pathresolve p name) child ++ matchAbsL exts p rest

end

mutual

/-- Every regular file of a subtree as (root-relative segment path, entry
name, content), the relative path accumulated from the entry names on the
way down. -/
def filesRelC (segs : List String) (name : String) : FSObject →
    List (List String × String × String)
  | .file content _ => [(segs, name, content)]
  | .statError => []
  | .dir es => filesRelL segs es

/-- filesRelC over a directory listing. -/
def filesRelL (pre : List String) : List (String × FSObject) →
    List (List String × String × String)
  | [] => []
  | (name, child) :: rest =>
    filesRelC (pre ++ [name]) name child ++ filesRelL pre rest

end

/-- The regular files of a directory tree, with root-relative segment
paths. -/
def filesRel (es : List (String × FSObject)) : List (List String × String × String) :=
  filesRelL [] es

/-- Render a root-relative segment path as a path string. -/
def renderRel : List String → String
  | [] => ""
  | [n] => n
  | n :: m :: rest => n ++ "/" ++ renderRel (m :: rest)

mutual

/-- Whether a subtree contains an entry on which stat() fails. -/
def hasStatError : FSObject → Bool
  | .file _ _ => false
  | .statError => true
  | .dir es => hasStatErrorL es

/-- hasStatError over a directory listing. -/
def hasStatErrorL : List (String × FSObject) → Bool
  | [] => false
  | (_, c) :: rest => hasStatError c || hasStatErrorL rest

end

mutual

/-- Whether every regular file of a subtree can be read. -/
def allReadable : FSObject → Bool
  | .file _ readable => readable
  | .statError => true
  | .dir es => allReadableL es

/-- allReadable over a directory listing. -/
def allReadableL : List (String × FSObject) → Bool
  | [] => true
  | (_, c) :: rest => allReadable c && allReadableL rest

end

/-- Pairwise-distinct strings. -/
def distinctNames : List String → Bool
  | [] => true
  | n :: rest => !(rest.contains n) && distinctNames rest

mutual

/-- A well-formed directory tree: every entry name is a valid readdir
name and sibling names are pairwise distinct. -/
def validTree : FSObject → Bool
  | .file _ _ => true
  | .statError => true
  | .dir es => distinctNames (es.map (fun e => e.1)) && validTreeL es

/-- validTree over a directory listing. -/
def validTreeL : List (String × FSObject) → Bool
  | [] => true
  | (name, child) :: rest => validName name && validTree child && validTreeL rest

end

/-- A clean absolute path: a separator followed by at least one valid
segment, with single separators in between (the shape of a normalized
absolute directory path as produced by checkConfig for a directory
input). -/
def CleanAbs (root : String) : Prop :=
  ∃ segs : List String, segs ≠ [] ∧ (∀ s ∈ segs, validName s = true) ∧
    root.data = '/' :: joinSegs (segs.map String.data)

/-! ## The extension the specification describes

The specification describes the matched extension as the substring after
the last dot of the path.  This function follows those words; it is
compared against the extname-based extraction the code performs. -/

/-- The extension as the specification words it: the substring after the
last dot of the path (without the dot), and the empty string for a path
without a dot. -/
def specLastDotExt (p : String) : String :=
  match lastDotSplit p.data with
  | none => ""
  | some (_, suf) => String.mk suf

/-- The extension the code actually matches: the substring after the last
dot of the final path segment, except that a dot starting the segment
introduces no extension (and the segment ".." has none).  This is the
amended description of the filter. -/
def amendedExt (p : String) : String :=
  match lastDotSplit (basenameL p.data) with
  | none => ""
  | some (pre, suf) =>
    if basenameL p.data = ['.', '.'] then ""
    else if pre.isEmpty then "" else String.mk suf

/-- The mapping entry the payload produces for a matched file, as a
function of its absolute path and content. -/
def mappingEntry (md5 : String → String) (config : BusterConfig)
    (pc : String × String) : String × String :=
  (jsSubstring pc.1 config.commonPathLength,
   jsSubstring (determineNewFilename pc.1 (md5 pc.2) config.hashLength)
     config.commonPathLength)

/-- The absolute path of the entry at a root-relative segment path. -/
def joinAbs (root : String) (segs : List String) : String :=
  if segs.isEmpty then root else root ++ "/" ++ renderRel segs

end Buster

namespace Buster

theorem string_ext {a b : String} (h : a.data = b.data) : a = b := by
  cases a
  cases b
  exact congrArg String.mk h

theorem length_eq_data (s : String) : s.length = s.data.length := rfl

theorem jsSubstring_strip (root rel : String) :
    jsSubstring (root ++ "/" ++ rel) ((root.length : Int) + 1) = rel := by
  apply string_ext
  show ((root ++ "/" ++ rel).data.drop ((root.length : Int) + 1).toNat) = rel.data
  have h1 : (root ++ "/" ++ rel).data = (root.data ++ ['/']) ++ rel.data := by
    simp [String.data_append]
  have hl : root.length = root.data.length := rfl
  have h2 : ((root.length : Int) + 1).toNat = (root.data ++ ['/']).length := by
    simp only [List.length_append, List.length_singleton, hl]
    omega
  rw [h1, h2, List.drop_left]

theorem jsSubstring_all (s : String) (i : Int) (h : (s.length : Int) ≤ i) :
    jsSubstring s i = "" := by
  apply string_ext
  show s.data.drop i.toNat = []
  apply List.drop_eq_nil_of_le
  have hl : s.length = s.data.length := rfl
  omega

theorem jsSubstring2_zero_nonneg (s : String) (n : Int) :
    jsSubstring2 s 0 n = String.mk (s.data.take n.toNat) := by
  apply string_ext
  show (s.data.take (max (min (Int.toNat 0) s.data.length) (min n.toNat s.data.length))).drop
      (min (min (Int.toNat 0) s.data.length) (min n.toNat s.data.length)) = s.data.take n.toNat
  simp only [Int.toNat_zero, Nat.zero_min, Nat.zero_max, Nat.min_zero, List.drop_zero]
  rcases Nat.le_total n.toNat s.data.length with hle | hle
  · rw [Nat.min_eq_left hle]
  · rw [Nat.min_eq_right hle, List.take_of_length_le (Nat.le_refl _),
      List.take_of_length_le hle]

theorem jsSubstring2_zero_big (s : String) (n : Int) (h : (s.length : Int) < n) :
    jsSubstring2 s 0 n = s := by
  rw [jsSubstring2_zero_nonneg]
  apply string_ext
  show s.data.take n.toNat = s.data
  apply List.take_of_length_le
  have hl : s.length = s.data.length := rfl
  omega

theorem jsSubstring2_zero_nonpos (s : String) (n : Int) (h : n ≤ 0) :
    jsSubstring2 s 0 n = "" := by
  rw [jsSubstring2_zero_nonneg]
  apply string_ext
  show s.data.take n.toNat = []
  have hn : n.toNat = 0 := by omega
  simp [hn]

end Buster

namespace Buster

theorem splitSlash_ne_nil : ∀ l : List Char, splitSlash l ≠ []
  | [] => by simp [splitSlash]
  | c :: rest => by
    by_cases hc : c = '/'
    · simp [splitSlash, hc]
    · simp only [splitSlash, if_neg hc]
      cases h : splitSlash rest <;> simp

theorem splitSlash_append_slash : ∀ a b : List Char,
    splitSlash (a ++ '/' :: b) = splitSlash a ++ splitSlash b
  | [], b => by simp [splitSlash]
  | c :: a, b => by
    by_cases hc : c = '/'
    · simp only [List.cons_append, splitSlash, if_pos hc, List.append_eq,
        splitSlash_append_slash a b]
    · simp only [List.cons_append, splitSlash, if_neg hc, List.append_eq,
        splitSlash_append_slash a b]
      cases h : splitSlash a with
      | nil => exact absurd h (splitSlash_ne_nil a)
      | cons s ss => simp

theorem splitSlash_no_slash : ∀ l : List Char, '/' ∉ l → splitSlash l = [l]
  | [], _ => by simp [splitSlash]
  | c :: rest, h => by
    have hc : c ≠ '/' := fun hc => h (hc ▸ List.mem_cons_self c rest)
    have hr : '/' ∉ rest := fun hr => h (List.mem_cons_of_mem c hr)
    simp only [splitSlash, if_neg hc, splitSlash_no_slash rest hr]

theorem segsOfL_append_slash (a b : List Char) :
    segsOfL (a ++ '/' :: b) = segsOfL a ++ segsOfL b := by
  simp [segsOfL, splitSlash_append_slash, List.filter_append]

theorem segsOfL_cons_slash (l : List Char) : segsOfL ('/' :: l) = segsOfL l := by
  have := splitSlash_append_slash [] l
  simp only [List.nil_append] at this
  simp [segsOfL, this, splitSlash]

theorem segsOfL_valid (s : List Char) (h1 : s ≠ []) (h2 : '/' ∉ s) :
    segsOfL s = [s] := by
  simp [segsOfL, splitSlash_no_slash s h2, List.filter, h1]

theorem segsOfL_join : ∀ S : List (List Char),
    (∀ s ∈ S, s ≠ [] ∧ '/' ∉ s) → segsOfL (joinSegs S) = S
  | [], _ => by simp [joinSegs, segsOfL, splitSlash, List.filter]
  | [s], h => by
    have := h s (by simp)
    simp [joinSegs, segsOfL_valid s this.1 this.2]
  | s :: t :: rest, h => by
    have hs := h s (by simp)
    rw [joinSegs, segsOfL_append_slash, segsOfL_valid s hs.1 hs.2,
      segsOfL_join (t :: rest) (fun x hx => h x (List.mem_cons_of_mem s hx))]
    simp

theorem normLoop_valid (allow : Bool) :
    ∀ (segs stack : List (List Char)),
    (∀ s ∈ segs, s ≠ ['.'] ∧ s ≠ ['.', '.']) →
    normLoop allow segs stack = stack.reverse ++ segs
  | [], stack, _ => by simp [normLoop]
  | s :: rest, stack, h => by
    have hs := h s (by simp)
    have h1 : (s == ['.']) = false := by simp [hs.1]
    have h2 : (s == ['.', '.']) = false := by simp [hs.2]
    have hstep : normLoop allow (s :: rest) stack = normLoop allow rest (s :: stack) := by
      rw [normLoop.eq_def]
      simp [h1, h2]
    rw [hstep, normLoop_valid allow rest (s :: stack)
      (fun x hx => h x (List.mem_cons_of_mem s hx))]
    simp

theorem joinSegs_append_single : ∀ (S : List (List Char)) (n : List Char),
    S ≠ [] → joinSegs (S ++ [n]) = joinSegs S ++ '/' :: n
  | [], _, h => absurd rfl h
  | [s], n, _ => by simp [joinSegs]
  | s :: t :: rest, n, _ => by
    have h1 := joinSegs_append_single (t :: rest) n (by simp)
    simp only [List.cons_append] at h1
    simp only [List.cons_append, joinSegs, List.append_eq, h1, List.append_assoc]

theorem renderRel_data : ∀ segs : List String,
    (renderRel segs).data = joinSegs (segs.map String.data)
  | [] => by simp [renderRel, joinSegs]
  | [n] => by simp [renderRel, joinSegs]
  | n :: m :: rest => by
    rw [renderRel, List.map_cons, List.map_cons, joinSegs]
    show (n ++ "/" ++ renderRel (m :: rest)).data = _
    rw [String.data_append, String.data_append, renderRel_data (m :: rest)]
    simp [List.map_cons]

theorem validName_data (n : String) (h : validName n = true) :
    n.data ≠ [] ∧ '/' ∉ n.data ∧ n.data ≠ ['.'] ∧ n.data ≠ ['.', '.'] := by
  simp only [validName, Bool.and_eq_true, bne_iff_ne, ne_eq,
    Bool.not_eq_true'] at h
  obtain ⟨⟨⟨he, hc⟩, hdot⟩, hdotdot⟩ := h
  refine ⟨?_, ?_, ?_, ?_⟩
  · intro hnil
    rw [hnil] at he
    simp [List.isEmpty] at he
  · intro hmem
    simp at hc
    exact hc hmem
  · intro hd
    exact hdot (string_ext hd)
  · intro hd
    exact hdotdot (string_ext hd)

end Buster

namespace Buster

theorem takeWhile_append_stop (p : Char → Bool) : ∀ (l1 : List Char) (b : Char) (l2 : List Char),
    (∀ x ∈ l1, p x = true) → p b = false →
    ((l1 ++ b :: l2).takeWhile p) = l1
  | [], b, l2, _, hb => by simp [List.takeWhile_cons, hb]
  | c :: l1, b, l2, h, hb => by
    have hc := h c (by simp)
    simp only [List.cons_append, List.takeWhile_cons, hc, if_true]
    rw [takeWhile_append_stop p l1 b l2 (fun x hx => h x (by simp [hx])) hb]

theorem takeWhile_all (p : Char → Bool) : ∀ l : List Char,
    (∀ x ∈ l, p x = true) → l.takeWhile p = l
  | [], _ => by simp
  | c :: l, h => by
    have hc := h c (by simp)
    simp only [List.takeWhile_cons, hc, if_true]
    rw [takeWhile_all p l (fun x hx => h x (by simp [hx]))]

theorem basenameL_append (a n : List Char) (hne : n ≠ []) (hns : '/' ∉ n) :
    basenameL (a ++ '/' :: n) = n := by
  obtain ⟨c, nr, hrev⟩ : ∃ c nr, n.reverse = c :: nr := by
    cases hn : n.reverse with
    | nil => exact absurd (List.reverse_eq_nil_iff.mp hn) hne
    | cons c nr => exact ⟨c, nr, rfl⟩
  have hmemrev : ∀ x ∈ n.reverse, x ≠ '/' := by
    intro x hx he
    exact hns (he ▸ List.mem_reverse.mp hx)
  have hcneq : c ≠ '/' := hmemrev c (by rw [hrev]; simp)
  unfold basenameL
  have hr : (a ++ '/' :: n).reverse = c :: (nr ++ '/' :: a.reverse) := by
    rw [List.reverse_append, List.reverse_cons, hrev]
    simp
  rw [hr]
  have hdrop : ((c :: (nr ++ '/' :: a.reverse)).dropWhile (fun x => x == '/'))
      = c :: (nr ++ '/' :: a.reverse) := by
    rw [List.dropWhile_cons_of_neg]
    simp [hcneq]
  rw [hdrop]
  have hall : ∀ x ∈ c :: nr, (fun x => x != '/') x = true := by
    intro x hx
    have : x ≠ '/' := hmemrev x (by rw [hrev]; exact hx)
    simp [this]
  have := takeWhile_append_stop (fun x => x != '/') (c :: nr) '/' a.reverse hall (by simp)
  simp only [List.cons_append] at this
  rw [this]
  rw [← hrev, List.reverse_reverse]

theorem basenameL_no_slash (n : List Char) (hns : '/' ∉ n) : basenameL n = n := by
  cases hn : n.reverse with
  | nil =>
    have : n = [] := List.reverse_eq_nil_iff.mp hn
    subst this
    rfl
  | cons c nr =>
    have hmemrev : ∀ x ∈ n.reverse, x ≠ '/' := by
      intro x hx he
      exact hns (he ▸ List.mem_reverse.mp hx)
    have hcneq : c ≠ '/' := hmemrev c (by rw [hn]; simp)
    unfold basenameL
    rw [hn, List.dropWhile_cons_of_neg (by simp [hcneq])]
    rw [takeWhile_all (fun x => x != '/') (c :: nr) (by
      intro x hx
      have : x ≠ '/' := hmemrev x (by rw [hn]; exact hx)
      simp [this])]
    rw [← hn, List.reverse_reverse]

theorem data_append_sep (q n : String) : (q ++ "/" ++ n).data = q.data ++ '/' :: n.data := by
  simp [String.data_append]

theorem extname_concat (q n : String) (h : validName n = true) :
    extname (q ++ "/" ++ n) = extname n := by
  have hd := validName_data n h
  unfold extname
  rw [data_append_sep, basenameL_append _ _ hd.1 hd.2.1, basenameL_no_slash _ hd.2.1]

theorem cleanAbs_extend (root n : String) (hc : CleanAbs root) (hn : validName n = true) :
    CleanAbs (root ++ "/" ++ n) := by
  obtain ⟨segs, hne, hval, hdata⟩ := hc
  refine ⟨segs ++ [n], by simp, ?_, ?_⟩
  · intro s hs
    rcases List.mem_append.mp hs with hs | hs
    · exact hval s hs
    · simp at hs
      subst hs
      exact hn
  · rw [data_append_sep, hdata, List.map_append]
    rw [show List.map String.data [n] = [n.data] from rfl]
    rw [joinSegs_append_single _ _ (by simpa using hne)]
    simp

theorem pathresolve_clean (root n : String) (hc : CleanAbs root) (hn : validName n = true) :
    pathresolve root n = root ++ "/" ++ n := by
  obtain ⟨segs, hne, hval, hdata⟩ := hc
  have hnd := validName_data n hn
  have hmapne : segs.map String.data ≠ [] := by simpa using hne
  have hjoin : root.data ++ '/' :: n.data = '/' :: joinSegs ((segs.map String.data) ++ [n.data]) := by
    rw [hdata, joinSegs_append_single _ _ hmapne]
    simp
  have hvalid : ∀ s ∈ (segs.map String.data) ++ [n.data], s ≠ [] ∧ '/' ∉ s := by
    intro s hs
    rcases List.mem_append.mp hs with hs | hs
    · obtain ⟨t, ht, rfl⟩ := List.mem_map.mp hs
      have := validName_data t (hval t ht)
      exact ⟨this.1, this.2.1⟩
    · simp at hs
      subst hs
      exact ⟨hnd.1, hnd.2.1⟩
  have hnodots : ∀ s ∈ (segs.map String.data) ++ [n.data], s ≠ ['.'] ∧ s ≠ ['.', '.'] := by
    intro s hs
    rcases List.mem_append.mp hs with hs | hs
    · obtain ⟨t, ht, rfl⟩ := List.mem_map.mp hs
      have := validName_data t (hval t ht)
      exact ⟨this.2.2.1, this.2.2.2⟩
    · simp at hs
      subst hs
      exact ⟨hnd.2.2.1, hnd.2.2.2⟩
  have hsegs : segsOfL (root.data ++ '/' :: n.data) = (segs.map String.data) ++ [n.data] := by
    rw [hjoin, segsOfL_cons_slash, segsOfL_join _ hvalid]
  have hnorm : normalizeSegs false ((segs.map String.data) ++ [n.data])
      = (segs.map String.data) ++ [n.data] := by
    unfold normalizeSegs
    rw [normLoop_valid false _ [] hnodots]
    simp
  unfold pathresolve
  rw [hsegs, hnorm]
  have hemp : ((segs.map String.data) ++ [n.data]).isEmpty = false := by simp
  rw [hemp]
  simp only [Bool.false_eq_true, if_false]
  apply string_ext
  show '/' :: joinSegs ((segs.map String.data) ++ [n.data]) = (root ++ "/" ++ n).data
  rw [data_append_sep, hjoin]

end Buster

namespace Buster

mutual

theorem walk_ok_shape (md5 : String → String) (config : BusterConfig) :
    ∀ (p : String) (t : FSObject) (m : List (String × String)),
    fileObjectWalker md5 config p t = .ok m →
    m = (matchAbs config.extensions p t).map (mappingEntry md5 config)
  | p, .statError, m, h => by
    simp [fileObjectWalker] at h
  | p, .file content readable, m, h => by
    by_cases hm : jsSubstring (extname p) 1 ∈ config.extensions
    · cases readable with
      | true =>
        simp [fileObjectWalker, createHashedFile, filterByExtension,
          hashFileContent, hm] at h
        subst h
        simp [matchAbs, extMatches, hm, mappingEntry]
      | false =>
        simp [fileObjectWalker, createHashedFile, filterByExtension,
          hashFileContent, hm] at h
    · simp [fileObjectWalker, createHashedFile, filterByExtension, hm] at h
      subst h
      simp [matchAbs, extMatches, hm]
  | p, .dir es, m, h => by
    simp only [fileObjectWalker] at h
    rw [show matchAbs config.extensions p (.dir es) = matchAbsL config.extensions p es
      from rfl]
    exact walkEntries_ok_shape md5 config p es m h

theorem walkEntries_ok_shape (md5 : String → String) (config : BusterConfig) :
    ∀ (p : String) (l : List (String × FSObject)) (m : List (String × String)),
    walkEntries md5 config p l = .ok m →
    m = (matchAbsL config.extensions p l).map (mappingEntry md5 config)
  | p, [], m, h => by
    simp only [walkEntries, Except.ok.injEq] at h
    subst h
    simp [matchAbsL]
  | p, (name, child) :: rest, m, h => by
    simp only [walkEntries] at h
    cases hc : fileObjectWalker md5 config (pathresolve p name) child with
    | error e => rw [hc] at h; simp at h
    | ok recResult =>
      rw [hc] at h
      cases hr : walkEntries md5 config p rest with
      | error e => rw [hr] at h; simp at h
      | ok results =>
        rw [hr] at h
        simp only [Except.ok.injEq] at h
        subst h
        rw [walk_ok_shape md5 config (pathresolve p name) child recResult hc,
          walkEntries_ok_shape md5 config p rest results hr]
        simp [matchAbsL]

end

end Buster

namespace Buster

theorem str_assoc (a b c : String) : a ++ b ++ c = a ++ (b ++ c) := by
  apply string_ext
  simp [String.data_append]

theorem renderRel_append_single : ∀ (pre : List String) (n : String),
    pre ≠ [] → renderRel (pre ++ [n]) = renderRel pre ++ "/" ++ n
  | [], _, h => absurd rfl h
  | [m], n, _ => by simp [renderRel]
  | m :: k :: rest, n, _ => by
    have h1 := renderRel_append_single (k :: rest) n (by simp)
    simp only [List.cons_append] at h1 ⊢
    rw [renderRel, h1, renderRel]
    simp only [str_assoc]

theorem joinAbs_append_single (root : String) (pre : List String) (n : String) :
    joinAbs root (pre ++ [n]) = joinAbs root pre ++ "/" ++ n := by
  cases pre with
  | nil => simp [joinAbs, renderRel]
  | cons m rest =>
    have h1 := renderRel_append_single (m :: rest) n (by simp)
    simp only [List.cons_append] at h1
    simp only [joinAbs, List.cons_append, List.isEmpty_cons, List.append_eq,
      Bool.false_eq_true, if_false]
    rw [h1]
    simp only [str_assoc]

mutual

theorem matchAbs_rel (exts : List String) (root : String) :
    ∀ (t : FSObject) (segs : List String) (name q1 : String),
    validTree t = true →
    CleanAbs q1 →
    q1 = joinAbs root segs →
    extMatches exts q1 = extMatches exts name →
    matchAbs exts q1 t
      = ((filesRelC segs name t).filter (fun f => extMatches exts f.2.1)).map
          (fun f => (joinAbs root f.1, f.2.2))
  | .file content readable, segs, name, q1, _, _, hq, hext => by
    by_cases hm : extMatches exts name
    · have h2 : extMatches exts q1 = true := by rw [hext]; exact hm
      subst hq
      simp [matchAbs, h2, hm, filesRelC, List.filter]
    · simp only [Bool.not_eq_true] at hm
      have h2 : extMatches exts q1 = false := by rw [hext]; exact hm
      subst hq
      simp [matchAbs, h2, hm, filesRelC, List.filter]
  | .statError, segs, name, q1, _, _, _, _ => by
    simp [matchAbs, filesRelC]
  | .dir es, segs, name, q1, hv, hc, hq, _ => by
    simp only [validTree, Bool.and_eq_true] at hv
    rw [show matchAbs exts q1 (.dir es) = matchAbsL exts q1 es from rfl]
    rw [show filesRelC segs name (.dir es) = filesRelL segs es from rfl]
    exact matchAbsL_rel exts root es segs q1 hv.2 hc hq

theorem matchAbsL_rel (exts : List String) (root : String) :
    ∀ (es : List (String × FSObject)) (pre : List String) (q : String),
    validTreeL es = true →
    CleanAbs q →
    q = joinAbs root pre →
    matchAbsL exts q es
      = ((filesRelL pre es).filter (fun f => extMatches exts f.2.1)).map
          (fun f => (joinAbs root f.1, f.2.2))
  | [], pre, q, _, _, _ => by simp [matchAbsL, filesRelL]
  | (name, child) :: rest, pre, q, hv, hc, hq => by
    simp only [validTreeL, Bool.and_eq_true] at hv
    obtain ⟨⟨hname, hchild⟩, hrest⟩ := hv
    have hres : pathresolve q name = q ++ "/" ++ name := pathresolve_clean q name hc hname
    have hclean1 : CleanAbs (q ++ "/" ++ name) := cleanAbs_extend q name hc hname
    have hq1 : q ++ "/" ++ name = joinAbs root (pre ++ [name]) := by
      rw [joinAbs_append_single, hq]
    have hext : extMatches exts (q ++ "/" ++ name) = extMatches exts name := by
      simp [extMatches, extname_concat q name hname]
    rw [show matchAbsL exts q ((name, child) :: rest)
        = matchAbs exts (pathresolve q name) child ++ matchAbsL exts q rest from rfl]
    rw [show filesRelL pre ((name, child) :: rest)
        = filesRelC (pre ++ [name]) name child ++ filesRelL pre rest from rfl]
    rw [hres,
      matchAbs_rel exts root child (pre ++ [name]) name (q ++ "/" ++ name)
        hchild hclean1 hq1 hext,
      matchAbsL_rel exts root rest pre q hrest hc hq]
    simp [List.filter_append]

end

end Buster

namespace Buster

theorem sep_cancel : ∀ (a b r1 r2 : List Char), '/' ∉ a → '/' ∉ b →
    a ++ '/' :: r1 = b ++ '/' :: r2 → a = b ∧ r1 = r2
  | [], [], r1, r2, _, _, h => by
    simp only [List.nil_append, List.cons.injEq] at h
    exact ⟨rfl, h.2⟩
  | [], c :: b, r1, r2, _, hb, h => by
    simp only [List.nil_append, List.cons_append, List.cons.injEq] at h
    exact absurd (h.1 ▸ List.mem_cons_self c b) hb
  | c :: a, [], r1, r2, ha, _, h => by
    simp only [List.nil_append, List.cons_append, List.cons.injEq] at h
    exact absurd (h.1 ▸ List.mem_cons_self c a) ha
  | c :: a, d :: b, r1, r2, ha, hb, h => by
    simp only [List.cons_append, List.cons.injEq] at h
    have hrec := sep_cancel a b r1 r2
      (fun hm => ha (List.mem_cons_of_mem c hm))
      (fun hm => hb (List.mem_cons_of_mem d hm)) h.2
    exact ⟨by rw [h.1, hrec.1], hrec.2⟩

theorem mem_joinSegs_sep (s : List Char) (J : List Char) : '/' ∈ s ++ '/' :: J := by
  exact List.mem_append.mpr (Or.inr (List.mem_cons_self _ _))

theorem joinSegs_inj : ∀ (A B : List (List Char)),
    (∀ s ∈ A, s ≠ [] ∧ '/' ∉ s) → (∀ s ∈ B, s ≠ [] ∧ '/' ∉ s) →
    joinSegs A = joinSegs B → A = B
  | [], [], _, _, _ => rfl
  | [], [s], _, hB, h => by
    rw [joinSegs, joinSegs] at h
    exact absurd h.symm (hB s (by simp)).1
  | [], s :: t :: r, _, hB, h => by
    rw [joinSegs, joinSegs] at h
    exact absurd h.symm (List.append_ne_nil_of_right_ne_nil s (by simp))
  | [s], [], hA, _, h => by
    rw [joinSegs, joinSegs] at h
    exact absurd h (hA s (by simp)).1
  | s :: t :: r, [], hA, _, h => by
    rw [joinSegs, joinSegs] at h
    exact absurd h (List.append_ne_nil_of_right_ne_nil s (by simp))
  | [s], [u], _, _, h => by
    rw [joinSegs, joinSegs] at h
    rw [h]
  | [s], u :: v :: w, hA, hB, h => by
    rw [joinSegs, joinSegs] at h
    have : '/' ∈ s := h ▸ mem_joinSegs_sep u (joinSegs (v :: w))
    exact absurd this (hA s (by simp)).2
  | s :: t :: r, [u], hA, hB, h => by
    rw [joinSegs, joinSegs] at h
    have : '/' ∈ u := h ▸ mem_joinSegs_sep s (joinSegs (t :: r))
    exact absurd this (hB u (by simp)).2
  | s :: t :: r, u :: v :: w, hA, hB, h => by
    rw [joinSegs, joinSegs] at h
    have hsep := sep_cancel s u (joinSegs (t :: r)) (joinSegs (v :: w))
      (hA s (by simp)).2 (hB u (by simp)).2 h
    have hrec := joinSegs_inj (t :: r) (v :: w)
      (fun x hx => hA x (List.mem_cons_of_mem s hx))
      (fun x hx => hB x (List.mem_cons_of_mem u hx)) hsep.2
    rw [hsep.1, hrec]

theorem renderRel_inj (a b : List String)
    (ha : ∀ s ∈ a, validName s = true) (hb : ∀ s ∈ b, validName s = true)
    (h : renderRel a = renderRel b) : a = b := by
  have hd : (renderRel a).data = (renderRel b).data := by rw [h]
  rw [renderRel_data, renderRel_data] at hd
  have hseg := joinSegs_inj (a.map String.data) (b.map String.data)
    (by
      intro s hs
      obtain ⟨t, ht, rfl⟩ := List.mem_map.mp hs
      have := validName_data t (ha t ht)
      exact ⟨this.1, this.2.1⟩)
    (by
      intro s hs
      obtain ⟨t, ht, rfl⟩ := List.mem_map.mp hs
      have := validName_data t (hb t ht)
      exact ⟨this.1, this.2.1⟩)
    hd
  have hinj : Function.Injective String.data := fun x y hxy => string_ext hxy
  exact (List.map_injective_iff.mpr hinj) hseg

theorem joinAbs_inj (root : String) (a b : List String)
    (hane : a ≠ []) (hbne : b ≠ [])
    (ha : ∀ s ∈ a, validName s = true) (hb : ∀ s ∈ b, validName s = true)
    (h : joinAbs root a = joinAbs root b) : a = b := by
  simp only [joinAbs, List.isEmpty_eq_true, hane, hbne, if_false] at h
  have hd : (root ++ "/" ++ renderRel a).data = (root ++ "/" ++ renderRel b).data := by
    rw [h]
  rw [data_append_sep, data_append_sep] at hd
  have := List.append_cancel_left hd
  simp only [List.cons.injEq, true_and] at this
  exact renderRel_inj a b ha hb (string_ext this)

end Buster

namespace Buster

mutual

theorem filesRelC_shape : ∀ (t : FSObject) (segs : List String) (name : String),
    ∀ f ∈ filesRelC segs name t, ∃ suf, f.1 = segs ++ suf
  | .file content readable, segs, name, f, hf => by
    simp only [filesRelC, List.mem_singleton] at hf
    exact ⟨[], by rw [hf]; simp⟩
  | .statError, segs, name, f, hf => by simp [filesRelC] at hf
  | .dir es, segs, name, f, hf => by
    rw [show filesRelC segs name (.dir es) = filesRelL segs es from rfl] at hf
    obtain ⟨n, suf, _, hform⟩ := filesRelL_shape es segs f hf
    exact ⟨n :: suf, hform⟩

theorem filesRelL_shape : ∀ (es : List (String × FSObject)) (pre : List String),
    ∀ f ∈ filesRelL pre es, ∃ n suf, n ∈ es.map (fun e => e.1) ∧ f.1 = pre ++ n :: suf
  | [], pre, f, hf => by simp [filesRelL] at hf
  | (name, child) :: rest, pre, f, hf => by
    rw [show filesRelL pre ((name, child) :: rest)
      = filesRelC (pre ++ [name]) name child ++ filesRelL pre rest from rfl] at hf
    rcases List.mem_append.mp hf with hf | hf
    · obtain ⟨suf, hform⟩ := filesRelC_shape child (pre ++ [name]) name f hf
      refine ⟨name, suf, by simp, ?_⟩
      rw [hform, List.append_assoc]
      simp
    · obtain ⟨n, suf, hmem, hform⟩ := filesRelL_shape rest pre f hf
      exact ⟨n, suf, by simp [hmem], hform⟩

end

mutual

theorem filesRelC_valid : ∀ (t : FSObject) (segs : List String) (name : String),
    validTree t = true → (∀ s ∈ segs, validName s = true) →
    ∀ f ∈ filesRelC segs name t, ∀ s ∈ f.1, validName s = true
  | .file content readable, segs, name, _, hsegs, f, hf => by
    simp only [filesRelC, List.mem_singleton] at hf
    rw [hf]
    exact hsegs
  | .statError, segs, name, _, _, f, hf => by simp [filesRelC] at hf
  | .dir es, segs, name, hv, hsegs, f, hf => by
    rw [show filesRelC segs name (.dir es) = filesRelL segs es from rfl] at hf
    simp only [validTree, Bool.and_eq_true] at hv
    exact filesRelL_valid es segs hv.2 hsegs f hf

theorem filesRelL_valid : ∀ (es : List (String × FSObject)) (pre : List String),
    validTreeL es = true → (∀ s ∈ pre, validName s = true) →
    ∀ f ∈ filesRelL pre es, ∀ s ∈ f.1, validName s = true
  | [], pre, _, _, f, hf => by simp [filesRelL] at hf
  | (name, child) :: rest, pre, hv, hpre, f, hf => by
    simp only [validTreeL, Bool.and_eq_true] at hv
    obtain ⟨⟨hname, hchild⟩, hrest⟩ := hv
    rw [show filesRelL pre ((name, child) :: rest)
      = filesRelC (pre ++ [name]) name child ++ filesRelL pre rest from rfl] at hf
    rcases List.mem_append.mp hf with hf | hf
    · refine filesRelC_valid child (pre ++ [name]) name hchild ?_ f hf
      intro s hs
      rcases List.mem_append.mp hs with hs | hs
      · exact hpre s hs
      · simp at hs
        subst hs
        exact hname
    · exact filesRelL_valid rest pre hrest hpre f hf

end

mutual

theorem filesRelC_nodup : ∀ (t : FSObject) (segs : List String) (name : String),
    validTree t = true → ((filesRelC segs name t).map (fun f => f.1)).Nodup
  | .file content readable, segs, name, _ => by simp [filesRelC]
  | .statError, segs, name, _ => by simp [filesRelC]
  | .dir es, segs, name, hv => by
    rw [show filesRelC segs name (.dir es) = filesRelL segs es from rfl]
    simp only [validTree, Bool.and_eq_true] at hv
    exact filesRelL_nodup es segs hv.1 hv.2

theorem filesRelL_nodup : ∀ (es : List (String × FSObject)) (pre : List String),
    distinctNames (es.map (fun e => e.1)) = true → validTreeL es = true →
    ((filesRelL pre es).map (fun f => f.1)).Nodup
  | [], pre, _, _ => by simp [filesRelL]
  | (name, child) :: rest, pre, hd, hv => by
    simp only [validTreeL, Bool.and_eq_true] at hv
    obtain ⟨⟨hname, hchild⟩, hrest⟩ := hv
    simp only [List.map_cons, distinctNames, Bool.and_eq_true, Bool.not_eq_true'] at hd
    rw [show filesRelL pre ((name, child) :: rest)
      = filesRelC (pre ++ [name]) name child ++ filesRelL pre rest from rfl]
    rw [List.map_append, List.nodup_append]
    refine ⟨filesRelC_nodup child (pre ++ [name]) name hchild,
      filesRelL_nodup rest pre hd.2 hrest, ?_⟩
    intro x hx hy
    obtain ⟨f, hf, hfx⟩ := List.mem_map.mp hx
    obtain ⟨g, hg, hgy⟩ := List.mem_map.mp hy
    obtain ⟨suf, hform⟩ := filesRelC_shape child (pre ++ [name]) name f hf
    obtain ⟨n, suf2, hnmem, hform2⟩ := filesRelL_shape rest pre g hg
    rw [← hgy] at hfx
    rw [hform, hform2, List.append_assoc] at hfx
    have heq : name :: suf = n :: suf2 := by
      have := List.append_cancel_left hfx
      simpa using this
    have : name = n := (List.cons.injEq _ _ _ _).mp heq |>.1
    subst this
    have hnotin : name ∉ List.map (fun e => e.1) rest := by
      have h1 := hd.1
      simpa using h1
    exact hnotin hnmem

end

end Buster

namespace Buster

mutual

theorem hasStatError_walk (md5 : String → String) (config : BusterConfig) :
    ∀ (p : String) (t : FSObject) (m : List (String × String)),
    hasStatError t = true → fileObjectWalker md5 config p t ≠ .ok m
  | p, .file content readable, m, h => by simp [hasStatError] at h
  | p, .statError, m, h => by simp [fileObjectWalker]
  | p, .dir es, m, h => by
    simp only [hasStatError] at h
    simp only [fileObjectWalker]
    exact hasStatError_walkEntries md5 config p es m h

theorem hasStatError_walkEntries (md5 : String → String) (config : BusterConfig) :
    ∀ (p : String) (l : List (String × FSObject)) (m : List (String × String)),
    hasStatErrorL l = true → walkEntries md5 config p l ≠ .ok m
  | p, [], m, h => by simp [hasStatErrorL] at h
  | p, (name, child) :: rest, m, h => by
    simp only [hasStatErrorL, Bool.or_eq_true] at h
    intro hok
    simp only [walkEntries] at hok
    cases hc : fileObjectWalker md5 config (pathresolve p name) child with
    | error e => rw [hc] at hok; simp at hok
    | ok recResult =>
      rw [hc] at hok
      cases hr : walkEntries md5 config p rest with
      | error e => rw [hr] at hok; simp at hok
      | ok results =>
        rcases h with h | h
        · exact hasStatError_walk md5 config (pathresolve p name) child recResult h hc
        · exact hasStatError_walkEntries md5 config p rest results h hr

end

mutual

theorem allReadable_walk (md5 : String → String) (config : BusterConfig) :
    ∀ (p : String) (t : FSObject), allReadable t = true →
    (∃ m, fileObjectWalker md5 config p t = .ok m) ∨
    (∃ s, fileObjectWalker md5 config p t = .error (.walkerError s))
  | p, .file content readable, h => by
    simp only [allReadable] at h
    subst h
    by_cases hm : jsSubstring (extname p) 1 ∈ config.extensions
    · refine Or.inl ⟨[(jsSubstring p config.commonPathLength,
        jsSubstring (determineNewFilename p (md5 content) config.hashLength)
          config.commonPathLength)], ?_⟩
      simp [fileObjectWalker, createHashedFile, filterByExtension,
        hashFileContent, hm]
    · exact Or.inl ⟨[], by
        simp [fileObjectWalker, createHashedFile, filterByExtension, hm]⟩
  | p, .statError, _ => Or.inr ⟨_, rfl⟩
  | p, .dir es, h => by
    simp only [allReadable] at h
    simp only [fileObjectWalker]
    exact allReadable_walkEntries md5 config p es h

theorem allReadable_walkEntries (md5 : String → String) (config : BusterConfig) :
    ∀ (p : String) (l : List (String × FSObject)), allReadableL l = true →
    (∃ m, walkEntries md5 config p l = .ok m) ∨
    (∃ s, walkEntries md5 config p l = .error (.walkerError s))
  | p, [], _ => Or.inl ⟨[], rfl⟩
  | p, (name, child) :: rest, h => by
    simp only [allReadableL, Bool.and_eq_true] at h
    rcases allReadable_walk md5 config (pathresolve p name) child h.1 with
      ⟨rec, hrec⟩ | ⟨s, hs⟩
    · rcases allReadable_walkEntries md5 config p rest h.2 with ⟨ms, hms⟩ | ⟨s, hs⟩
      · exact Or.inl ⟨rec ++ ms, by simp only [walkEntries, hrec, hms]⟩
      · exact Or.inr ⟨s, by simp only [walkEntries, hrec, hs]⟩
    · exact Or.inr ⟨s, by simp only [walkEntries, hs]⟩

end

end Buster

namespace Buster

theorem sibPerm_matchAbs (exts : List String) {t t' : FSObject} (h : SiblingPerm t t') :
    ∀ p, (matchAbs exts p t).Perm (matchAbs exts p t') :=
  @SiblingPerm.rec
    (fun t t' _ => ∀ p, (matchAbs exts p t).Perm (matchAbs exts p t'))
    (fun l l' _ => ∀ p, (matchAbsL exts p l).Perm (matchAbsL exts p l'))
    (fun _ _ _ => List.Perm.refl _)
    (fun _ => List.Perm.refl _)
    (fun es es' _ ih p => by
      rw [show matchAbs exts p (.dir es) = matchAbsL exts p es from rfl,
        show matchAbs exts p (.dir es') = matchAbsL exts p es' from rfl]
      exact ih p)
    (fun _ => List.Perm.refl _)
    (fun n c c' r r' _ _ ih1 ih2 p => by
      rw [show matchAbsL exts p ((n, c) :: r)
        = matchAbs exts (pathresolve p n) c ++ matchAbsL exts p r from rfl]
      rw [show matchAbsL exts p ((n, c') :: r')
        = matchAbs exts (pathresolve p n) c' ++ matchAbsL exts p r' from rfl]
      exact (ih1 (pathresolve p n)).append (ih2 p))
    (fun a b r p => by
      rw [show matchAbsL exts p (a :: b :: r)
        = matchAbs exts (pathresolve p a.1) a.2
          ++ (matchAbs exts (pathresolve p b.1) b.2 ++ matchAbsL exts p r) from by
        cases a; cases b; rfl]
      rw [show matchAbsL exts p (b :: a :: r)
        = matchAbs exts (pathresolve p b.1) b.2
          ++ (matchAbs exts (pathresolve p a.1) a.2 ++ matchAbsL exts p r) from by
        cases a; cases b; rfl]
      rw [← List.append_assoc, ← List.append_assoc]
      exact (List.perm_append_comm).append_right _)
    (fun l1 l2 l3 _ _ ih1 ih2 p => (ih1 p).trans (ih2 p))
    t t' h

theorem filter_ext_eq_amendedExt (p : String) :
    jsSubstring (extname p) 1 = amendedExt p := by
  unfold extname amendedExt extOfBase
  by_cases hdd : basenameL p.data = ['.', '.']
  · rw [hdd]
    rfl
  · rw [if_neg hdd]
    cases hsplit : lastDotSplit (basenameL p.data) with
    | none =>
      apply string_ext
      simp [jsSubstring]
    | some ps =>
      obtain ⟨pre, suf⟩ := ps
      by_cases hpre : pre.isEmpty
      · apply string_ext
        simp [jsSubstring, hpre, hdd]
      · simp only [Bool.not_eq_true] at hpre
        apply string_ext
        simp [jsSubstring, hpre, hdd]

end Buster

namespace Buster

theorem jsSubstring_nonpos (s : String) (i : Int) (h : i ≤ 0) : jsSubstring s i = s := by
  apply string_ext
  show s.data.drop i.toNat = s.data
  have : i.toNat = 0 := by omega
  simp [this]

namespace Filesystem

theorem fsRead_write_self (fs : FlatFS) (d c : String) :
    fsRead (fsWrite fs d c) d = some c := by
  simp [fsRead, fsWrite, List.find?]

theorem fsRead_filter_ne (x d : String) (hxd : x ≠ d) :
    ∀ fs : FlatFS, fsRead (fs.filter (fun e => e.1 != d)) x = fsRead fs x
  | [] => rfl
  | (k, v) :: fs => by
    by_cases hk : k = d
    · subst hk
      have h1 : ((k, v).1 != k) = false := by simp
      have h2 : ((k, v).1 == x) = false := by
        simp
        exact fun h => hxd h.symm
      simp only [List.filter, h1, fsRead, List.find?, h2]
      exact fsRead_filter_ne x k hxd fs
    · have h1 : ((k, v).1 != d) = true := by simp [hk]
      by_cases hx : k = x
      · subst hx
        simp [fsRead, List.find?, List.filter, h1]
      · have h2 : ((k, v).1 == x) = false := by simp [hx]
        simp only [List.filter, h1, fsRead, List.find?, h2]
        exact fsRead_filter_ne x d hxd fs

theorem fsRead_write_other (fs : FlatFS) (x d c : String) (hxd : x ≠ d) :
    fsRead (fsWrite fs d c) x = fsRead fs x := by
  have h2 : ((d, c).1 == x) = false := by
    simp
    exact fun h => hxd h.symm
  simp only [fsWrite, fsRead, List.find?, h2]
  exact fsRead_filter_ne x d hxd fs

theorem fsRead_erase_self (s : String) : ∀ fs : FlatFS, fsRead (fsErase fs s) s = none
  | [] => rfl
  | (k, v) :: fs => by
    by_cases hk : k = s
    · subst hk
      have h1 : ((k, v).1 != k) = false := by simp
      simp only [fsErase, List.filter, h1]
      exact fsRead_erase_self k fs
    · have h1 : ((k, v).1 != s) = true := by simp [hk]
      have h2 : ((k, v).1 == s) = false := by simp [hk]
      simp only [fsErase, List.filter, h1, fsRead, List.find?, h2]
      exact fsRead_erase_self s fs

end Filesystem

mutual

theorem walk_no_filterError (md5 : String → String) (config : BusterConfig) :
    ∀ (p : String) (t : FSObject) (s : String),
    fileObjectWalker md5 config p t ≠ .error (.filterError s)
  | p, .statError, s => by simp [fileObjectWalker]
  | p, .file content readable, s => by
    by_cases hm : jsSubstring (extname p) 1 ∈ config.extensions
    · cases readable with
      | true =>
        simp [fileObjectWalker, createHashedFile, filterByExtension,
          hashFileContent, hm]
      | false =>
        simp [fileObjectWalker, createHashedFile, filterByExtension,
          hashFileContent, hm]
    · simp [fileObjectWalker, createHashedFile, filterByExtension, hm]
  | p, .dir es, s => by
    simp only [fileObjectWalker]
    exact walkEntries_no_filterError md5 config p es s

theorem walkEntries_no_filterError (md5 : String → String) (config : BusterConfig) :
    ∀ (p : String) (l : List (String × FSObject)) (s : String),
    walkEntries md5 config p l ≠ .error (.filterError s)
  | p, [], s => by simp [walkEntries]
  | p, (name, child) :: rest, s => by
    intro hbad
    simp only [walkEntries] at hbad
    cases hc : fileObjectWalker md5 config (pathresolve p name) child with
    | error e =>
      rw [hc] at hbad
      simp only [Except.error.injEq] at hbad
      exact walk_no_filterError md5 config (pathresolve p name) child s (hbad ▸ hc)
    | ok recResult =>
      rw [hc] at hbad
      cases hr : walkEntries md5 config p rest with
      | error e =>
        rw [hr] at hbad
        simp only [Except.error.injEq] at hbad
        exact walkEntries_no_filterError md5 config p rest s (hbad ▸ hr)
      | ok results =>
        rw [hr] at hbad
        simp at hbad

end

end Buster

namespace Buster

/-- C1: For every well-formed input tree walked from a clean absolute
directory root with commonPathLength equal to the root length plus the
separator length (the directory configuration computed by checkConfig),
a successful run of fileObjectWalker with the createHashedFile payload
returns a mapping whose keys are exactly the root-relative paths (no
leading root prefix) of the regular files whose extension is in the
configured extensions — one entry per matching file, with pairwise
distinct keys — and no entry for any file whose extension is not in the
set. -/
theorem walker_keys_exactly_matching_files
    (md5 : String → String) (config : BusterConfig) (root : String)
    (es : List (String × FSObject)) (m : List (String × String))
    (hclean : CleanAbs root)
    (hvalid : validTree (.dir es) = true)
    (hcpl : config.commonPathLength = (root.length : Int) + 1)
    (hok : fileObjectWalker md5 config root (.dir es) = .ok m) :
    m.map (fun e => e.1)
      = ((filesRel es).filter (fun f => extMatches config.extensions f.2.1)).map
          (fun f => renderRel f.1)
    ∧ (m.map (fun e => e.1)).Nodup
    ∧ ∀ f ∈ filesRel es, extMatches config.extensions f.2.1 = false →
        renderRel f.1 ∉ m.map (fun e => e.1) := by
  simp only [validTree, Bool.and_eq_true] at hvalid
  obtain ⟨hdist, hvL⟩ := hvalid
  have hshape := walk_ok_shape md5 config root (.dir es) m hok
  rw [show matchAbs config.extensions root (.dir es)
    = matchAbsL config.extensions root es from rfl] at hshape
  have hrel := matchAbsL_rel config.extensions root es [] root hvL hclean
    (by simp [joinAbs])
  rw [hrel] at hshape
  rw [show filesRelL [] es = filesRel es from rfl] at hshape
  set L := filesRel es with hL
  set filterL := L.filter (fun f => extMatches config.extensions f.2.1) with hFL
  have hvalid_mem : ∀ f ∈ L, ∀ s ∈ f.1, validName s = true := by
    intro f hf
    exact filesRelL_valid es [] hvL (by simp) f hf
  have hne_mem : ∀ f ∈ L, f.1 ≠ [] := by
    intro f hf
    obtain ⟨n, suf, _, hform⟩ := filesRelL_shape es [] f hf
    rw [hform]
    simp
  have hkey : ∀ f ∈ filterL,
      (mappingEntry md5 config (joinAbs root f.1, f.2.2)).1 = renderRel f.1 := by
    intro f hf
    have hfL : f ∈ L := List.mem_of_mem_filter hf
    have hne := hne_mem f hfL
    show jsSubstring (joinAbs root f.1) config.commonPathLength = renderRel f.1
    rw [show joinAbs root f.1 = root ++ "/" ++ renderRel f.1 from by
      simp only [joinAbs, List.isEmpty_eq_true, hne, if_false]]
    rw [hcpl, jsSubstring_strip]
  have hkeys : m.map (fun e => e.1) = filterL.map (fun f => renderRel f.1) := by
    rw [hshape, List.map_map, List.map_map]
    exact List.map_congr_left (fun f hf => hkey f hf)
  have hnodL : (L.map (fun f => f.1)).Nodup := filesRelL_nodup es [] hdist hvL
  have hLnodup : L.Nodup := List.Nodup.of_map _ hnodL
  have hinjL := List.inj_on_of_nodup_map hnodL
  have hnodup_keys : (m.map (fun e => e.1)).Nodup := by
    rw [hkeys]
    refine List.Nodup.map_on ?_ (hLnodup.filter _)
    intro x hx y hy hxy
    have hxL : x ∈ L := List.mem_of_mem_filter hx
    have hyL : y ∈ L := List.mem_of_mem_filter hy
    have hfst : x.1 = y.1 :=
      renderRel_inj x.1 y.1 (hvalid_mem x hxL) (hvalid_mem y hyL) hxy
    exact hinjL hxL hyL hfst
  refine ⟨hkeys, hnodup_keys, ?_⟩
  intro f hf hpred hcontra
  rw [hkeys] at hcontra
  obtain ⟨g, hg, heq⟩ := List.mem_map.mp hcontra
  have hgL : g ∈ L := List.mem_of_mem_filter hg
  have hgpred : extMatches config.extensions g.2.1 = true := (List.mem_filter.mp hg).2
  have hfst : g.1 = f.1 :=
    renderRel_inj g.1 f.1 (hvalid_mem g hgL) (hvalid_mem f hf) heq
  have : g = f := hinjL hgL hf hfst
  rw [this] at hgpred
  rw [hgpred] at hpred
  cases hpred

/-- C1 witness: the nesting example of the specification, with files
a.js, sub/b.css and sub/skip.txt under the root /root and extensions
js and css: the two matching files produce exactly the relative keys
a.js and sub/b.css. -/
theorem walker_keys_exactly_matching_files_witness :
    ([("a.js", "a.0123456789.js"), ("sub/b.css", "sub/b.0123456789.css")]
        : List (String × String)).map (fun e => e.1)
      = ((filesRel [("a.js", FSObject.file "A" true),
            ("sub", FSObject.dir [("b.css", FSObject.file "B" true),
              ("skip.txt", FSObject.file "S" true)])]).filter
          (fun f => extMatches ["js", "css"] f.2.1)).map (fun f => renderRel f.1) := by
  have h := walker_keys_exactly_matching_files (fun _ => "0123456789abcdef")
    { commonPathLength := 6, extensions := ["js", "css"], input := "/root",
      hashLength := 10, mode := "copy" } "/root"
    [("a.js", FSObject.file "A" true),
     ("sub", FSObject.dir [("b.css", FSObject.file "B" true),
       ("skip.txt", FSObject.file "S" true)])]
    [("a.js", "a.0123456789.js"), ("sub/b.css", "sub/b.0123456789.css")]
    ⟨["root"], by decide, by decide, by decide⟩
    (by decide) (by decide) rfl
  exact h.1

end Buster

namespace Buster

/-- C2 counterexample: for the single-file input /root/a.js, checkConfig
leaves commonPathLength at the -1 sentinel, and the walk of that file
produces the manifest key /root/a.js — the full absolute path — which is
not the base filename a.js, contradicting the claim that commonPathLength
is computed so that the manifest key is just the base filename. -/
theorem singleFile_key_is_full_path_counterexample :
    checkConfigCommonPathLength (-1) false "/root/a.js" = -1 ∧
    fileObjectWalker (fun _ => "0123456789abcdef")
      { commonPathLength := checkConfigCommonPathLength (-1) false "/root/a.js",
        extensions := ["js"], input := "/root/a.js", hashLength := 10,
        mode := "copy" }
      "/root/a.js" (.file "A" true)
      = .ok [("/root/a.js", "/root/a.0123456789.js")] ∧
    ("/root/a.js" : String) ≠ "a.js" :=
  ⟨rfl, rfl, by decide⟩

/-- C2 amended: when the input is not a directory, checkConfig leaves the
commonPathLength sentinel -1 unchanged; the walker does handle a top-level
plain file through the same payload invocation path, with no directory
listing step; and because substring clamps the -1 offset to 0, the
manifest key for a matching top-level file is its full absolute path (and
the value the full new filename), not the base filename. -/
theorem singleFile_walker_payload_path :
    (∀ inp : String, checkConfigCommonPathLength (-1) false inp = -1) ∧
    (∀ (md5 : String → String) (config : BusterConfig) (root content : String)
        (readable : Bool),
      fileObjectWalker md5 config root (.file content readable)
        = createHashedFile md5 config root content readable) ∧
    (∀ (md5 : String → String) (config : BusterConfig) (root content : String),
      config.commonPathLength = -1 →
      extMatches config.extensions root = true →
      fileObjectWalker md5 config root (.file content true)
        = .ok [(root, determineNewFilename root (md5 content) config.hashLength)]) := by
  refine ⟨fun inp => rfl, fun md5 config root content readable => rfl, ?_⟩
  intro md5 config root content hcpl hmatch
  have hmem : jsSubstring (extname root) 1 ∈ config.extensions := by
    simpa [extMatches] using hmatch
  simp [fileObjectWalker, createHashedFile, filterByExtension, hashFileContent,
    hmem, hcpl, jsSubstring_nonpos]

/-- C2 witness: the amended behaviour at the concrete single-file input
/root/a.js with extensions js and hash length 10. -/
theorem singleFile_walker_payload_path_witness :
    fileObjectWalker (fun _ => "0123456789abcdef")
      { commonPathLength := -1, extensions := ["js"], input := "/root/a.js",
        hashLength := 10, mode := "copy" }
      "/root/a.js" (.file "A" true)
      = .ok [("/root/a.js",
          determineNewFilename "/root/a.js" "0123456789abcdef" 10)] := by
  exact singleFile_walker_payload_path.2.2 (fun _ => "0123456789abcdef")
    { commonPathLength := -1, extensions := ["js"], input := "/root/a.js",
      hashLength := 10, mode := "copy" }
    "/root/a.js" "A" rfl (by decide)

/-- C3: if any entry of the tree has a failing stat, the top-level walk
never resolves with a mapping (no partial mapping is returned), and — when
no other hard-failure source is present, i.e. every file is readable — it
rejects with a BusterHashWalkerError (WalkerError). -/
theorem statError_aborts_walk (md5 : String → String) (config : BusterConfig)
    (p : String) (t : FSObject) (hstat : hasStatError t = true) :
    (∀ m, fileObjectWalker md5 config p t ≠ .ok m) ∧
    (allReadable t = true →
      ∃ s, fileObjectWalker md5 config p t = .error (.walkerError s)) := by
  constructor
  · exact fun m => hasStatError_walk md5 config p t m hstat
  · intro hread
    rcases allReadable_walk md5 config p t hread with ⟨m, hm⟩ | ⟨s, hs⟩
    · exact absurd hm (hasStatError_walk md5 config p t m hstat)
    · exact ⟨s, hs⟩

/-- C3 witness: a tree with a good file and an entry whose stat fails; the
walk rejects with a WalkerError. -/
theorem statError_aborts_walk_witness :
    ∃ s, fileObjectWalker (fun _ => "0123456789abcdef")
      { commonPathLength := 6, extensions := ["js"], input := "/root",
        hashLength := 10, mode := "copy" }
      "/root" (.dir [("a.js", .file "A" true), ("x", .statError)])
      = .error (.walkerError s) := by
  exact (statError_aborts_walk (fun _ => "0123456789abcdef")
    { commonPathLength := 6, extensions := ["js"], input := "/root",
      hashLength := 10, mode := "copy" }
    "/root" (.dir [("a.js", .file "A" true), ("x", .statError)])
    (by decide)).2 (by decide)

/-- C4: for a file whose extension is not in the configured set, the
createHashedFile payload absorbs the BusterExtensionFilterError and
resolves with the empty mapping (regardless of the file content or its
readability, since filtering happens before hashing), so the file
contributes nothing to the result; and no walk ever rejects with a filter
error, so this outcome never aborts a walk.  The walk always completes:
the walker is a total function in this model. -/
theorem filtered_file_skipped (md5 : String → String) (config : BusterConfig) :
    (∀ (filename content : String) (readable : Bool),
      extMatches config.extensions filename = false →
      createHashedFile md5 config filename content readable = .ok []) ∧
    (∀ (p : String) (t : FSObject) (s : String),
      fileObjectWalker md5 config p t ≠ .error (.filterError s)) := by
  constructor
  · intro filename content readable hmatch
    have hmem : jsSubstring (extname filename) 1 ∉ config.extensions := by
      have h1 : config.extensions.contains (jsSubstring (extname filename) 1)
          = false := hmatch
      simpa using h1
    simp [createHashedFile, filterByExtension, hmem]
  · exact fun p t s => walk_no_filterError md5 config p t s

/-- C4 witness: skip.txt with extensions js and css resolves with the
empty mapping. -/
theorem filtered_file_skipped_witness :
    createHashedFile (fun _ => "0123456789abcdef")
      { commonPathLength := 6, extensions := ["js", "css"], input := "/root",
        hashLength := 10, mode := "copy" }
      "/root/skip.txt" "S" true = .ok [] := by
  exact (filtered_file_skipped (fun _ => "0123456789abcdef")
    { commonPathLength := 6, extensions := ["js", "css"], input := "/root",
      hashLength := 10, mode := "copy" }).1
    "/root/skip.txt" "S" true (by decide)

end Buster

namespace Buster

/-- C5 counterexample: for the dotfile /root/.gitignore with configured
extensions ["gitignore"], the substring after the last dot of the path is
"gitignore" and is a member of the set, yet filterByExtension rejects with
a filter error, because Node extname treats a dot that starts the basename
as introducing no extension. -/
theorem filterByExtension_dotfile_counterexample :
    specLastDotExt "/root/.gitignore" = "gitignore" ∧
    (["gitignore"] : List String).contains (specLastDotExt "/root/.gitignore") = true ∧
    filterByExtension "/root/.gitignore" ["gitignore"]
      = .error (.filterError
          "/root/.gitignore: extension \"\" not in extensions") :=
  ⟨by decide, by decide, rfl⟩

/-- C5 amended: filterByExtension resolves with the original path
unchanged if and only if the extension of the path's final segment —
the substring after the last dot of that segment, case-sensitive and
without the dot, where a dot that starts the segment introduces no
extension and the segment ".." has none — is in the configured set;
otherwise it rejects with a filter error.  A path without such an
extension matches only when the empty string is in the set. -/
theorem filterByExtension_amended (p : String) (exts : List String) :
    (filterByExtension p exts = .ok p ↔ exts.contains (amendedExt p) = true) ∧
    (exts.contains (amendedExt p) = false →
      filterByExtension p exts
        = .error (.filterError
            (p ++ ": extension \"" ++ amendedExt p ++ "\" not in extensions"))) := by
  unfold filterByExtension
  rw [filter_ext_eq_amendedExt]
  constructor
  · constructor
    · intro h
      by_cases hc : exts.contains (amendedExt p) = true
      · exact hc
      · exfalso
        rw [Bool.not_eq_true] at hc
        simp only [hc, Bool.false_eq_true, if_false] at h
        cases h
    · intro hc
      simp only [hc, if_true]
  · intro hc
    simp only [hc, Bool.false_eq_true, if_false]

/-- C5 witness: the amended rule at concrete inputs — lib/app.js passes
for extension set [js, css], and skip.txt is rejected with a filter
error. -/
theorem filterByExtension_amended_witness :
    filterByExtension "lib/app.js" ["js", "css"] = .ok "lib/app.js" ∧
    filterByExtension "/root/skip.txt" ["js", "css"]
      = .error (.filterError
          ("/root/skip.txt" ++ ": extension \"" ++ amendedExt "/root/skip.txt"
            ++ "\" not in extensions")) := by
  constructor
  · exact (filterByExtension_amended "lib/app.js" ["js", "css"]).1.mpr (by decide)
  · exact (filterByExtension_amended "/root/skip.txt" ["js", "css"]).2 (by decide)

/-- C6: for every path, digest and nonnegative hashLength, the filename
deriver is the pure function producing directory/base.(first hashLength
characters of the digest)(extension) — the truncation is exactly a prefix
take — and on the reference example lib/app.js with digest
abcdef1234567890 and hashLength 10 it yields lib/app.abcdef1234.js. -/
theorem determineNewFilename_spec :
    (∀ (p d : String) (n : Int), 0 ≤ n →
      determineNewFilename p d n
        = posixJoin (dirname p)
            (basename2 p (extname p) ++ "." ++ String.mk (d.data.take n.toNat)
              ++ extname p)) ∧
    determineNewFilename "lib/app.js" "abcdef1234567890" 10
      = "lib/app.abcdef1234.js" := by
  constructor
  · intro p d n _
    unfold determineNewFilename
    rw [jsSubstring2_zero_nonneg]
  · rfl

/-- C6 witness: the general form applied at the reference example. -/
theorem determineNewFilename_spec_witness :
    (0 : Int) ≤ 10 ∧
    determineNewFilename "lib/app.js" "abcdef1234567890" 10
      = posixJoin (dirname "lib/app.js")
          (basename2 "lib/app.js" (extname "lib/app.js") ++ "."
            ++ String.mk (("abcdef1234567890" : String).data.take (10 : Int).toNat)
            ++ extname "lib/app.js") :=
  ⟨by decide,
   determineNewFilename_spec.1 "lib/app.js" "abcdef1234567890" 10 (by decide)⟩

/-- C7: when hashLength strictly exceeds the digest length, the substring
truncation is a no-op and the full digest is inserted into the new
filename. -/
theorem determineNewFilename_long_hash (p d : String) (n : Int)
    (h : (d.length : Int) < n) :
    determineNewFilename p d n
      = posixJoin (dirname p)
          (basename2 p (extname p) ++ "." ++ d ++ extname p) := by
  unfold determineNewFilename
  rw [jsSubstring2_zero_big d n h]

/-- C7 witness: digest abc (length 3) with hashLength 10 is inserted in
full. -/
theorem determineNewFilename_long_hash_witness :
    ((("abc" : String).length : Int) < 10) ∧
    determineNewFilename "lib/app.js" "abc" 10
      = posixJoin (dirname "lib/app.js")
          (basename2 "lib/app.js" (extname "lib/app.js") ++ "." ++ "abc"
            ++ extname "lib/app.js") :=
  ⟨by decide, determineNewFilename_long_hash "lib/app.js" "abc" 10 (by decide)⟩

end Buster

namespace Buster

/-- C8 counterexample: a rename whose destination equals its source
succeeds (POSIX rename onto the same path is a successful no-op) and the
source still exists afterwards, so "the source no longer exists
afterward" fails for this input. -/
theorem rename_same_path_counterexample :
    Filesystem.createHashedFile [("/a.js", "x")] "/a.js" "/a.js" MODE_RENAME
      = .ok ([("/a.js", "x")], "/a.js") ∧
    Filesystem.fsRead [("/a.js", "x")] "/a.js" ≠ none :=
  ⟨rfl, by decide⟩

/-- C8 amended: a successful materialize in Copy mode leaves the source
in place with its content unchanged and creates the destination with the
same content; a successful materialize in Rename mode with destination
distinct from the source leaves the destination with the source's
content and removes the source; in both modes the resolved value is the
destination path. -/
theorem materialize_copy_rename_spec (fs : Filesystem.FlatFS) (s d : String) :
    (∀ (fs2 : Filesystem.FlatFS) (r : String),
      Filesystem.createHashedFile fs s d MODE_COPY = .ok (fs2, r) →
      Filesystem.fsRead fs2 s = Filesystem.fsRead fs s ∧
      Filesystem.fsRead fs2 d = Filesystem.fsRead fs s ∧
      Filesystem.fsRead fs s ≠ none ∧ r = d) ∧
    (s ≠ d → ∀ (fs2 : Filesystem.FlatFS) (r : String),
      Filesystem.createHashedFile fs s d MODE_RENAME = .ok (fs2, r) →
      Filesystem.fsRead fs2 d = Filesystem.fsRead fs s ∧
      Filesystem.fsRead fs2 s = none ∧ r = d) := by
  constructor
  · intro fs2 r h
    rw [show Filesystem.createHashedFile fs s d MODE_COPY
      = Filesystem.copyFile fs s d from rfl] at h
    unfold Filesystem.copyFile at h
    cases hsrc : Filesystem.fsRead fs s with
    | none => rw [hsrc] at h; cases h
    | some c =>
      rw [hsrc] at h
      simp only [Except.ok.injEq, Prod.mk.injEq] at h
      obtain ⟨hfs2, hr⟩ := h
      subst hfs2
      refine ⟨?_, ?_, by simp, hr.symm⟩
      · by_cases hsd : s = d
        · subst hsd
          rw [Filesystem.fsRead_write_self]
        · rw [Filesystem.fsRead_write_other fs s d c hsd]
          exact hsrc
      · rw [Filesystem.fsRead_write_self]
  · intro hsd fs2 r h
    rw [show Filesystem.createHashedFile fs s d MODE_RENAME
      = Filesystem.renameFile fs s d from rfl] at h
    unfold Filesystem.renameFile at h
    cases hsrc : Filesystem.fsRead fs s with
    | none => rw [hsrc] at h; cases h
    | some c =>
      rw [hsrc] at h
      simp only [Except.ok.injEq, Prod.mk.injEq] at h
      obtain ⟨hfs2, hr⟩ := h
      subst hfs2
      refine ⟨?_, ?_, hr.symm⟩
      · rw [Filesystem.fsRead_write_self]
      · rw [Filesystem.fsRead_write_other _ s d c hsd]
        exact Filesystem.fsRead_erase_self s fs

/-- C8 witness: copy then rename of /a.js to /b.js on a one-file
filesystem. -/
theorem materialize_copy_rename_spec_witness :
    (Filesystem.fsRead [("/b.js", "x"), ("/a.js", "x")] "/a.js"
        = Filesystem.fsRead [("/a.js", "x")] "/a.js" ∧
      Filesystem.fsRead [("/b.js", "x"), ("/a.js", "x")] "/b.js"
        = Filesystem.fsRead [("/a.js", "x")] "/a.js" ∧
      Filesystem.fsRead [("/a.js", "x")] "/a.js" ≠ none ∧
      ("/b.js" : String) = "/b.js") ∧
    (Filesystem.fsRead [("/b.js", "x")] "/b.js"
        = Filesystem.fsRead [("/a.js", "x")] "/a.js" ∧
      Filesystem.fsRead [("/b.js", "x")] "/a.js" = none ∧
      ("/b.js" : String) = "/b.js") := by
  constructor
  · exact (materialize_copy_rename_spec [("/a.js", "x")] "/a.js" "/b.js").1
      [("/b.js", "x"), ("/a.js", "x")] "/b.js" rfl
  · exact (materialize_copy_rename_spec [("/a.js", "x")] "/a.js" "/b.js").2
      (by decide) [("/b.js", "x")] "/b.js" rfl

/-- C9: two successful walks of the same filesystem content in which
sibling operations complete in different orders (modelled as walks of
trees equal up to recursive reordering of sibling listings) produce the
same final mapping as a multiset of key-value pairs: the merged result is
deterministic even though completion order is not. -/
theorem reordered_walks_same_mapping
    (md5 : String → String) (config : BusterConfig) (root : String)
    (t t' : FSObject) (m m' : List (String × String))
    (hperm : SiblingPerm t t')
    (h1 : fileObjectWalker md5 config root t = .ok m)
    (h2 : fileObjectWalker md5 config root t' = .ok m') :
    m.Perm m' := by
  rw [walk_ok_shape md5 config root t m h1, walk_ok_shape md5 config root t' m' h2]
  exact (sibPerm_matchAbs config.extensions hperm root).map _

/-- C9 witness: walking a two-file directory and the same directory with
the sibling order swapped yields mappings that are permutations of each
other. -/
theorem reordered_walks_same_mapping_witness :
    ([("a.js", "a.0123456789.js"), ("b.css", "b.0123456789.css")]
        : List (String × String)).Perm
      [("b.css", "b.0123456789.css"), ("a.js", "a.0123456789.js")] := by
  exact reordered_walks_same_mapping (fun _ => "0123456789abcdef")
    { commonPathLength := 6, extensions := ["js", "css"], input := "/root",
      hashLength := 10, mode := "copy" }
    "/root"
    (.dir [("a.js", .file "A" true), ("b.css", .file "B" true)])
    (.dir [("b.css", .file "B" true), ("a.js", .file "A" true)])
    _ _
    (.dir _ _ (.swap ("a.js", .file "A" true) ("b.css", .file "B" true) []))
    rfl rfl

/-- C10: for hashLength zero, and likewise for any negative hashLength
(the substring bound clamps to zero), the derived filename is the base
name, a dot, an empty hash segment and the extension — the base name
gains a trailing dot immediately before the extension; in particular
app.js becomes app..js. -/
theorem determineNewFilename_zero_hashLength :
    (∀ (p d : String) (n : Int), n ≤ 0 →
      determineNewFilename p d n
        = posixJoin (dirname p)
            (basename2 p (extname p) ++ "." ++ "" ++ extname p)) ∧
    (∀ d : String, determineNewFilename "app.js" d 0 = "app..js") := by
  constructor
  · intro p d n hn
    unfold determineNewFilename
    rw [jsSubstring2_zero_nonpos d n hn]
  · intro d
    unfold determineNewFilename
    rw [jsSubstring2_zero_nonpos d 0 (by omega)]
    rfl

/-- C10 witness: hashLength -3 with a sixteen-character digest. -/
theorem determineNewFilename_zero_hashLength_witness :
    ((-3 : Int) ≤ 0) ∧
    determineNewFilename "app.js" "0123456789abcdef" (-3)
      = posixJoin (dirname "app.js")
          (basename2 "app.js" (extname "app.js") ++ "." ++ "" ++ extname "app.js") :=
  ⟨by decide,
   determineNewFilename_zero_hashLength.1 "app.js" "0123456789abcdef" (-3) (by decide)⟩

end Buster
